import Mathlib

/-!
# Shallow embedding of the `arber` Merkle-Mountain-Range crate

This file embeds the core of the `arber` MMR implementation
(`src/hash.rs`, `src/utils.rs`, `src/store.rs`, `src/mmr.rs`,
`src/proof.rs`) into Lean and settles the specification claims
against it.

Modelling conventions:

* Machine integers (`u64`, `u8`, `usize`) are modelled as `Nat`.  All
  the bit-manipulation loops of `utils.rs` only subtract, shift right
  and mask, so no overflow can occur for inputs below `2 ^ 64`; the
  `Nat` versions agree with the `u64` versions on that whole range.
* The BLAKE2b-256 digest is out of scope of the specification ("any
  32-byte cryptographic digest").  It is modelled as a free term
  algebra: `Hash.raw` is a literal 32-byte value, and the three ways
  the code feeds data into the digest (`Vec<u8>` input, a pair of
  hashes, an index-prefixed hash) become injective constructors.
  Equal constructions therefore have equal hashes -- exactly as for
  the real digest -- and distinct constructions have distinct hashes,
  which is the collision-freeness the design relies on.
* Fallible Rust functions returning `Result<T, Error>` become
  `Except Error T`.
* Loops are translated structurally.  The peak loops of `utils.rs`
  iterate over `peak_idx = ALL_ONES >> leading_zeros(x)` halving each
  round, i.e. over `2 ^ k - 1` for `k = bitlen x` down to `1`; they
  are translated as structural recursion over `k`.  The remaining
  loops take an explicit iteration budget that is chosen at the call
  site to be at least the number of iterations the Rust loop performs.
-/

deriving instance DecidableEq for Except

namespace Arber

/-- Symbolic 32-byte hash value (see the module docstring): a free
algebra over the exact digest constructions used by `hash.rs`. -/
inductive Hash : Type where
  /-- A literal 32-byte value, as produced by `Hash::from_vec`. -/
  | raw (bytes : List Nat)
  /-- `Blake2b` digest of a raw byte string (`impl Hashable for Vec<u8>`). -/
  | digestBytes (bytes : List Nat)
  /-- `Blake2b` digest of the 64 bytes of two hashes (`impl Hashable for (A, B)`). -/
  | digestPair (a b : Hash)
  /-- `Blake2b` digest of `u64_le(idx) ∥ h` (`hash_with_index`). -/
  | digestIndexed (idx : Nat) (h : Hash)
deriving DecidableEq, Repr

/-- `ZERO_HASH`: the all-zero 32-byte hash (`hash.rs`). -/
def ZERO_HASH : Hash := Hash.raw (List.replicate 32 0)

/-- `Hash::from_vec`: copy at most 32 bytes of `v`, zero-pad on the right. -/
def Hash.from_vec (v : List Nat) : Hash :=
  Hash.raw (v.take 32 ++ List.replicate (32 - v.length) 0)

/-- `(a, b).hash()` for two hashes: each component hashes to itself and the
concatenation is digested (`impl Hashable for (A, B)` with `impl Hashable for Hash`). -/
def hashPair (a b : Hash) : Hash := Hash.digestPair a b

/-- `hash_with_index(idx, hash) = Blake2b(idx.to_le_bytes() ∥ hash)` (`hash.rs`). -/
def hash_with_index (idx : Nat) (h : Hash) : Hash := Hash.digestIndexed idx h

/-- `impl Hashable for Vec<u8>`: digest of the raw bytes. -/
def hashBytes (v : List Nat) : Hash := Hash.digestBytes v

/-- SCALE compact encoding of a length `n < 2 ^ 32` (`Compact<u32>`), used both
by `elem.encode()` for `Vec<u8>` leaves and by the `Vec<Hash>` proof path. -/
def compactEncode (n : Nat) : List Nat :=
  if n < 64 then [4 * n]
  else if n < 16384 then
    let v := 4 * n + 1
    [v % 256, v / 256 % 256]
  else if n < 1073741824 then
    let v := 4 * n + 2
    [v % 256, v / 256 % 256, v / 65536 % 256, v / 16777216 % 256]
  else
    [3, n % 256, n / 256 % 256, n / 65536 % 256, n / 16777216 % 256]

/-- SCALE encoding of a `Vec<u8>`: compact length followed by the bytes.
This is `elem.encode()` for the `Vec<u8>` leaf type used by the crate's tests. -/
def scaleEncodeBytes (v : List Nat) : List Nat := compactEncode v.length ++ v

/-- The crate's error taxonomy (`error.rs`).  The stitched sources also
contain stringly-typed variants (`Error::Store(String)`,
`Error::ParseHex(String)`) from older snapshots; they carry the same
evidence (an index, resp. the trimmed input string) and are modelled by
`MissingHashAtIndex` and `InvalidHexString`, the variants `error.rs`
actually declares. -/
inductive Error : Type where
  | ExpectingLeafNode (pos : Nat)
  | InvalidHexString (s : List Char)
  | InvalidNodeHash (idx : Nat) (stored expected : Hash)
  | InvalidNodeHeight (height : Nat)
  | InvalidRootHash (got root : Hash)
  | MissingHashAtIndex (idx : Nat)
  | MissingRootNode
deriving DecidableEq, Repr

/-! ## Position algebra (`utils.rs`)

All loops in `utils.rs` start from `peak_idx = ALL_ONES >> x.leading_zeros()`,
which for `0 < x < 2 ^ 64` equals `2 ^ bitlen x - 1`, and halve `peak_idx`
each round: `2 ^ k - 1 → 2 ^ (k - 1) - 1`.  They are embedded as structural
recursion over the exponent `k`. -/

/-- Number of binary digits of `n` (`64 - n.leading_zeros()` for `u64`).
Structurally recursive via an iteration budget of `n` (enough since
`bitlen n ≤ n` for all `n`). -/
def bitlenAux : Nat → Nat → Nat
  | 0, _ => 0
  | fuel + 1, n => if n = 0 then 0 else bitlenAux fuel (n / 2) + 1

/-- Number of binary digits of `n`. -/
def bitlen (n : Nat) : Nat := bitlenAux n n

/-- Loop of `node_height`: subtract each `2 ^ k - 1 ≤ idx`, `k` descending. -/
def nodeHeightAux : Nat → Nat → Nat
  | 0, idx => idx
  | k + 1, idx =>
      let p := 2 ^ (k + 1) - 1
      if p ≤ idx then nodeHeightAux k (idx - p) else nodeHeightAux k idx

/-- `node_height(pos)` (`utils.rs`): height of the node at 1-based position
`pos` in post-order traversal (`idx = pos.saturating_sub(1)` internally). -/
def node_height (pos : Nat) : Nat :=
  let idx := pos - 1
  if idx = 0 then 0 else nodeHeightAux (bitlen idx) idx

/-- `is_leaf(pos)` (`utils.rs`): the node at position `pos` has height 0. -/
def is_leaf (pos : Nat) : Bool := node_height pos = 0

/-- Loop of `peak_height_map`: same subtraction loop, also accumulating the
peak bitmap. -/
def peakHeightMapAux : Nat → Nat → Nat → Nat × Nat
  | 0, peak_map, idx => (peak_map, idx)
  | k + 1, peak_map, idx =>
      let p := 2 ^ (k + 1) - 1
      if p ≤ idx then peakHeightMapAux k (2 * peak_map + 1) (idx - p)
      else peakHeightMapAux k (2 * peak_map) idx

/-- `peak_height_map(idx)` (`utils.rs`): bitmap of peak heights right before
inserting a node at 0-based index `idx`, plus the height of that new node. -/
def peak_height_map (idx : Nat) : Nat × Nat :=
  if idx = 0 then (0, 0) else peakHeightMapAux (bitlen idx) 0 idx

/-- Loop of `peaks`: collect `prev + (2 ^ k - 1)` for each `2 ^ k - 1` that
still fits into the remaining node count; also return the final remainder. -/
def peaksAux : Nat → Nat → Nat → List Nat × Nat
  | 0, nodes_left, _ => ([], nodes_left)
  | k + 1, nodes_left, prev =>
      let p := 2 ^ (k + 1) - 1
      if p ≤ nodes_left then
        let r := peaksAux k (nodes_left - p) (prev + p)
        ((prev + p) :: r.1, r.2)
      else peaksAux k nodes_left prev

/-- `peaks(size)` (`utils.rs`): positions of all peaks, leftmost (highest)
first; the empty list for `size = 0` and for unstable sizes (nodes left
over after consuming all `2 ^ k - 1` blocks). -/
def peaks (size : Nat) : List Nat :=
  if size = 0 then []
  else
    let r := peaksAux (bitlen size) size 0
    if r.2 > 0 then [] else r.1

/-- Loop of `family_path` (`utils.rs`).  `j` is the exponent of the Rust
`parent_height = 2 ^ j` accumulator.  The Rust `while node_pos < end_pos`
loop increases `node_pos` by at least 1 each round, so it runs at most
`end_pos` times; `fuel` is that budget (`family_path` passes `end_pos`),
decremented once per iteration. -/
def familyPathAux (peak_map end_pos : Nat) : Nat → Nat → Nat → List (Nat × Nat)
  | 0, _, _ => []
  | fuel + 1, j, node_pos =>
      if node_pos < end_pos then
        let ph := 2 ^ j
        if peak_map &&& ph ≠ 0 then
          let np := node_pos + 1
          let sibling := np - 2 * ph
          if np > end_pos then []
          else (np, sibling) :: familyPathAux peak_map end_pos fuel (j + 1) np
        else
          let np := node_pos + 2 * ph
          let sibling := np - 1
          if np > end_pos then []
          else (np, sibling) :: familyPathAux peak_map end_pos fuel (j + 1) np
      else []

/-- `family_path(pos, end_pos)` (`utils.rs`): the `(parent, sibling)` walk
from `pos` up to the peak containing it, stopping when the next parent
would exceed `end_pos`. -/
def family_path (pos end_pos : Nat) : List (Nat × Nat) :=
  let pm := peak_height_map (pos - 1)
  familyPathAux pm.1 end_pos end_pos pm.2 pos

/-! ## Hex parsing (`hash.rs`)

Strings are modelled as `List Char` (Rust `str` of the panic-free
fragment; the claims only involve ASCII inputs). -/

/-- Rust `char::is_whitespace`: the Unicode `White_Space` code points. -/
def rustIsWhitespace (c : Char) : Bool :=
  let n := c.toNat
  (9 ≤ n && n ≤ 13) || n == 32 || n == 133 || n == 160 || n == 0x1680 ||
    (0x2000 ≤ n && n ≤ 0x200A) || n == 0x2028 || n == 0x2029 ||
    n == 0x202F || n == 0x205F || n == 0x3000

/-- Rust `str::trim`: drop whitespace from both ends. -/
def rustTrim (s : List Char) : List Char :=
  ((s.dropWhile rustIsWhitespace).reverse.dropWhile rustIsWhitespace).reverse

/-- Rust `str::trim_start_matches("0x")`: repeatedly remove a leading `"0x"`. -/
def strip0x : List Char → List Char
  | '0' :: 'x' :: rest => strip0x rest
  | s => s

/-- Rust `char::to_digit(16)`. -/
def toDigit16 (c : Char) : Option Nat :=
  let n := c.toNat
  if 48 ≤ n ∧ n ≤ 57 then some (n - 48)
  else if 97 ≤ n ∧ n ≤ 102 then some (n - 87)
  else if 65 ≤ n ∧ n ≤ 70 then some (n - 55)
  else none

/-- Digit loop of `u8::from_str_radix(_, 16)` for a non-negative parse:
checked `acc * 16 + d` staying within `u8`. -/
def radixPosLoop : Nat → List Char → Option Nat
  | acc, [] => some acc
  | acc, c :: cs =>
      match toDigit16 c with
      | none => none
      | some d => if acc * 16 + d ≤ 255 then radixPosLoop (acc * 16 + d) cs else none

/-- Digit loop of `u8::from_str_radix(_, 16)` after a `'-'` sign: checked
`acc * 16 - d`, which for an unsigned type only tolerates zero digits. -/
def radixNegLoop : Nat → List Char → Option Nat
  | acc, [] => some acc
  | acc, c :: cs =>
      match toDigit16 c with
      | none => none
      | some d =>
          if acc * 16 ≤ 255 ∧ d ≤ acc * 16 then radixNegLoop (acc * 16 - d) cs
          else none

/-- Rust `u8::from_str_radix(s, 16)`: optional leading `'+'`/`'-'` sign,
then a non-empty digit sequence folded with checked `u8` arithmetic. -/
def fromStrRadix16U8 (s : List Char) : Option Nat :=
  match s with
  | [] => none
  | c :: rest =>
      if c = '+' then if rest = [] then none else radixPosLoop 0 rest
      else if c = '-' then if rest = [] then none else radixNegLoop 0 rest
      else radixPosLoop 0 s

/-- The `(0..hex.len()).step_by(2)` map-collect of `parse_hex`: parse each
two-character group, stopping at the first failure. -/
def parsePairs : List Char → Option (List Nat)
  | [] => some []
  | c1 :: c2 :: rest => do
      let b ← fromStrRadix16U8 [c1, c2]
      let bs ← parsePairs rest
      some (b :: bs)
  | [_] => none

/-- `parse_hex(hex)` (`hash.rs`): trim whitespace, strip leading `"0x"`
repetitions, require even length, parse byte pairs; any failure carries
the trimmed, prefix-stripped input. -/
def parse_hex (s : List Char) : Except (List Char) (List Nat) :=
  let t := strip0x (rustTrim s)
  if t.length % 2 ≠ 0 then .error t
  else
    match parsePairs t with
    | some bs => .ok bs
    | none => .error t

/-- `Hash::from_hex(hex)` (`hash.rs`): `Hash::from_vec` of the parsed
bytes, or the hex-parse error (`Error::ParseHex` in the `hash.rs`
snapshot, declared as `InvalidHexString` in `error.rs`). -/
def from_hex (s : List Char) : Except Error Hash :=
  match parse_hex s with
  | .ok v => .ok (Hash.from_vec v)
  | .error t => .error (.InvalidHexString t)

/-- Plain hex-digit decoding of consecutive two-character groups, written
from the spec's words ("the decoded bytes" of "a string of hex digits");
compared against `parse_hex` in the claim about `from_hex`. -/
def hexDecodeSpec : List Char → List Nat
  | c1 :: c2 :: rest =>
      ((toDigit16 c1).getD 0 * 16 + (toDigit16 c2).getD 0) :: hexDecodeSpec rest
  | _ => []

/-! ## Store (`store.rs`) -/

/-- `VecStore<Vec<u8>>`: an optional data log and a dense hash log.  Leaf
elements are byte vectors (`type E = Vec<u8>` in the crate's tests). -/
structure VecStore : Type where
  data : Option (List (List Nat))
  hashes : List Hash
deriving DecidableEq, Repr

/-- `VecStore::new()`. -/
def VecStore.new : VecStore := ⟨some [], []⟩

/-- `VecStore::hash_at(idx)`: the hash at 0-based index `idx`, or the
missing-hash error carrying `idx` (an `Error::Store` string with the same
index in the `store.rs` snapshot; `MissingHashAtIndex` per `error.rs`). -/
def VecStore.hash_at (s : VecStore) (idx : Nat) : Except Error Hash :=
  match s.hashes.get? idx with
  | some h => .ok h
  | none => .error (.MissingHashAtIndex idx)

/-- `VecStore::append(elem, hashes)`: push `elem` onto the data log (when
retained) and extend the hash log; infallible for `VecStore`. -/
def VecStore.append (s : VecStore) (elem : List Nat) (hs : List Hash) :
    Except Error VecStore :=
  .ok ⟨s.data.map (· ++ [elem]), s.hashes ++ hs⟩

/-! ## MMR engine (`mmr.rs`) -/

/-- `MerkleMountainRange<Vec<u8>, VecStore<Vec<u8>>>`: total node count
plus the backing store. -/
structure MMR : Type where
  size : Nat
  store : VecStore
deriving DecidableEq, Repr

/-- `MerkleMountainRange::new(size, store)`. -/
def MMR.new (size : Nat) (store : VecStore) : MMR := ⟨size, store⟩

/-- `MerkleMountainRange::hash(pos)`: reads the store at index
`pos.saturating_sub(1)`. -/
def MMR.hash (m : MMR) (pos : Nat) : Except Error Hash :=
  m.store.hash_at (pos - 1)

/-- `MerkleMountainRange::peaks()`: the store hash of every `peaks(size)`
position, failing on the first missing hash. -/
def MMR.peaks (m : MMR) : Except Error (List Hash) :=
  go m.store (Arber.peaks m.size)
where
  /-- The `for p in peaks` collection loop. -/
  go (st : VecStore) : List Nat → Except Error (List Hash)
    | [] => .ok []
    | p :: ps => do
        let h ← st.hash_at (p - 1)
        let rest ← go st ps
        .ok (h :: rest)

/-- `MerkleMountainRange::root()`: `ZERO_HASH` for the empty MMR, otherwise
the right-to-left fold of the peak hashes, each combination tagged with the
current size; `MissingRootNode` when there are no peaks. -/
def MMR.root (m : MMR) : Except Error Hash :=
  if m.size = 0 then .ok ZERO_HASH
  else
    match m.peaks with
    | .error e => .error e
    | .ok ps =>
        let acc := ps.reverse.foldl
          (fun acc p =>
            match acc with
            | none => some p
            | some h => some (hash_with_index m.size (hashPair p h)))
          none
        match acc with
        | some h => .ok h
        | none => .error .MissingRootNode

/-- The `while (peak_map & height) != 0` merge loop of
`MerkleMountainRange::bag_the_peaks`.  `j` is the exponent of the Rust
`height = 2 ^ j` accumulator; the loop runs at most once per set bit of
`peak_map`, so a budget of `peak_map + 1` iterations is always enough. -/
def bagPeaksLoop (st : VecStore) (peak_map : Nat) :
    Nat → Nat → Nat → Nat → Hash → List Hash → Except Error (Nat × List Hash)
  | 0, _, _, new, _, merkle_path => .ok (new, merkle_path)
  | fuel + 1, j, idx, new, peak_hash, merkle_path =>
      if peak_map &&& 2 ^ j ≠ 0 then
        match st.hash_at (idx + 1 - 2 * 2 ^ j) with
        | .error e => .error e
        | .ok left_hash =>
            let idx' := idx + 1
            let ph := hash_with_index idx' (hashPair left_hash peak_hash)
            bagPeaksLoop st peak_map fuel (j + 1) idx' (new + 1) ph
              (merkle_path ++ [ph])
      else .ok (new, merkle_path)

/-- `MerkleMountainRange::bag_the_peaks(node_hash, peak_map)`: number of new
nodes and the merkle path (new leaf hash plus every merged parent hash). -/
def MMR.bag_the_peaks (m : MMR) (node_hash : Hash) (peak_map : Nat) :
    Except Error (Nat × List Hash) :=
  bagPeaksLoop m.store peak_map (peak_map + 1) 0 m.size 1 node_hash [node_hash]

/-- `MerkleMountainRange::append(elem)`.  The Rust method mutates `self`
only after every fallible step has succeeded; the embedding returns the
resulting state together with the `Result`, and returns the input state
unchanged alongside every error. -/
def MMR.append (m : MMR) (elem : List Nat) : MMR × Except Error Nat :=
  let idx := m.size
  let node_hash := hash_with_index idx (hashBytes (scaleEncodeBytes elem))
  let pm := peak_height_map idx
  if pm.2 ≠ 0 then (m, .error (.InvalidNodeHeight pm.2))
  else
    match m.bag_the_peaks node_hash pm.1 with
    | .error e => (m, .error e)
    | .ok (new, peak_hashes) =>
        match m.store.append elem peak_hashes with
        | .error e => (m, .error e)
        | .ok store' =>
            let m' : MMR := ⟨m.size + new, store'⟩
            (m', .ok m'.size)

/-- The `for pos in 1..=self.size` loop of `MerkleMountainRange::validate`,
iterated with an explicit countdown (`fuel = size` at the top-level call).
Note the `utils::node_height(pos.saturating_sub(1))` call: the height is
taken at `pos - 1`, faithfully to the `mmr.rs` source. -/
def validateLoop (st : VecStore) (size : Nat) : Nat → Nat → Except Error Bool
  | 0, _ => .ok true
  | fuel + 1, pos =>
      if pos ≤ size then
        let height := node_height (pos - 1)
        if height > 0 then
          let idx := pos - 1
          match st.hash_at (idx - 2 ^ height) with
          | .error e => .error e
          | .ok left_hash =>
              match st.hash_at (idx - 1) with
              | .error e => .error e
              | .ok right_hash =>
                  let tmp := hash_with_index idx (hashPair left_hash right_hash)
                  match st.hash_at idx with
                  | .error e => .error e
                  | .ok parent_hash =>
                      if tmp ≠ parent_hash then
                        .error (.InvalidNodeHash idx parent_hash tmp)
                      else validateLoop st size fuel (pos + 1)
        else validateLoop st size fuel (pos + 1)
      else .ok true

/-- `MerkleMountainRange::validate()`: recheck every parent hash; `Ok(true)`
on full success. -/
def MMR.validate (m : MMR) : Except Error Bool :=
  validateLoop m.store m.size m.size 1

/-- `MerkleMountainRange::bag_lower_peaks(pos)`: fold the hashes of all
peaks right of `pos` right-to-left, tagging each combination with the
current size. -/
def MMR.bag_lower_peaks (m : MMR) (pos : Nat) : Option Hash :=
  let ps := ((Arber.peaks m.size).filter (fun x => pos < x)).filterMap
    (fun x => (m.hash x).toOption)
  ps.reverse.foldl
    (fun acc peak =>
      match acc with
      | none => some peak
      | some h => some (hash_with_index m.size (hashPair peak h)))
    none

/-- `MerkleMountainRange::peak_path(pos)`: hashes of the peaks left of
`pos`, the bagged lower peaks appended, the whole list reversed. -/
def MMR.peak_path (m : MMR) (pos : Nat) : List Hash :=
  let lower := m.bag_lower_peaks pos
  let path := ((Arber.peaks m.size).filter (fun n => n < pos)).filterMap
    (fun n => (m.hash n).toOption)
  let path := match lower with
    | some l => path ++ [l]
    | none => path
  path.reverse

/-! ## Merkle proof (`proof.rs`) -/

/-- `MerkleProof { mmr_size, path }`. -/
structure MerkleProof : Type where
  mmr_size : Nat
  path : List Hash
deriving DecidableEq, Repr

/-- `MerkleProof::new()` (also `Default for MerkleProof`). -/
def MerkleProof.new : MerkleProof := ⟨0, []⟩

/-- `MerkleMountainRange::proof(pos)` (`mmr.rs`).  Note the leaf guard
`!utils::is_leaf(pos.saturating_sub(1))`: faithfully to the source, the
height check is applied at position `pos - 1`, not at `pos`. -/
def MMR.proof (m : MMR) (pos : Nat) : Except Error MerkleProof :=
  if ¬ is_leaf (pos - 1) then .error (.ExpectingLeafNode pos)
  else
    match m.hash pos with
    | .error e => .error e
    | .ok _ =>
        let fp := family_path pos m.size
        let path := fp.filterMap (fun x => (m.hash x.2).toOption)
        let peak := match fp.getLast? with
          | some n => n.1
          | none => pos
        .ok ⟨m.size, path ++ m.peak_path peak⟩

/-- `MerkleMountainRange::partial_proof(pos, size)` (`mmr.rs`): a proof for
the historical snapshot with `size` nodes.  The leaf guard here is
`!utils::is_leaf(pos)`, and the peak path (computed against the *current*
`self.size`) is appended only when `peak < size`. -/
def MMR.partial_proof (m : MMR) (pos size : Nat) : Except Error MerkleProof :=
  if ¬ is_leaf pos then .error (.ExpectingLeafNode pos)
  else
    match m.hash pos with
    | .error e => .error e
    | .ok _ =>
        let fp := family_path pos size
        let path := fp.filterMap (fun x => (m.hash x.2).toOption)
        let peak := match fp.getLast? with
          | some n => n.1
          | none => pos
        let path := if peak < size then path ++ m.peak_path peak else path
        .ok ⟨size, path⟩

/-! ## Proof wire format (`#[derive(Encode, Decode)]` on `MerkleProof`)

The SCALE codec itself lives in the external `parity-scale-codec` crate;
its effect on `MerkleProof` is fixed by the wire format the spec states:
`u64` little-endian for `mmr_size`, a compact-length-prefixed array for
`path`, each hash as its 32 raw bytes.  The wire view below therefore
represents each hash by its byte list. -/

/-- `u64` little-endian encoding (8 bytes). -/
def encodeU64le (n : Nat) : List Nat :=
  [n % 256, n / 256 % 256, n / 65536 % 256, n / 16777216 % 256,
   n / 4294967296 % 256, n / 1099511627776 % 256,
   n / 281474976710656 % 256, n / 72057594037927936 % 256]

/-- Decode a `u64` from 8 little-endian bytes, returning the rest. -/
def decodeU64le : List Nat → Option (Nat × List Nat)
  | b0 :: b1 :: b2 :: b3 :: b4 :: b5 :: b6 :: b7 :: rest =>
      some (b0 + 256 * b1 + 65536 * b2 + 16777216 * b3 + 4294967296 * b4 +
        1099511627776 * b5 + 281474976710656 * b6 +
        72057594037927936 * b7, rest)
  | _ => none

/-- Decode a SCALE `Compact<u32>` length, returning the rest. -/
def decodeCompact : List Nat → Option (Nat × List Nat)
  | [] => none
  | b :: rest =>
      if b % 4 = 0 then some (b / 4, rest)
      else if b % 4 = 1 then
        match rest with
        | b1 :: r => some ((b + 256 * b1) / 4, r)
        | [] => none
      else if b % 4 = 2 then
        match rest with
        | b1 :: b2 :: b3 :: r =>
            some ((b + 256 * b1 + 65536 * b2 + 16777216 * b3) / 4, r)
        | _ => none
      else
        if b / 4 = 0 then
          match rest with
          | b0 :: b1 :: b2 :: b3 :: r =>
              some (b0 + 256 * b1 + 65536 * b2 + 16777216 * b3, r)
          | _ => none
        else none

/-- Read `count` hashes of 32 raw bytes each, returning the rest. -/
def decodeHashes : Nat → List Nat → Option (List (List Nat) × List Nat)
  | 0, rest => some ([], rest)
  | count + 1, bytes =>
      if bytes.length < 32 then none
      else
        match decodeHashes count (bytes.drop 32) with
        | some (hs, r) => some (bytes.take 32 :: hs, r)
        | none => none

/-- Wire encoding of a `MerkleProof` whose hashes are given as raw bytes:
`u64_le(mmr_size) ∥ compact(path.len()) ∥ path bytes`. -/
def encodeProofBytes (mmr_size : Nat) (path : List (List Nat)) : List Nat :=
  encodeU64le mmr_size ++ compactEncode path.length ++ path.flatten

/-- Wire decoding of a `MerkleProof`, returning the remaining bytes
(`decode_all` then requires that remainder to be empty). -/
def decodeProofBytes (bytes : List Nat) :
    Option ((Nat × List (List Nat)) × List Nat) :=
  match decodeU64le bytes with
  | none => none
  | some (sz, r1) =>
      match decodeCompact r1 with
      | none => none
      | some (len, r2) =>
          match decodeHashes len r2 with
          | none => none
          | some (hs, r3) => some ((sz, hs), r3)

/-! ## Building MMRs by appending (the `make_mmr` pattern of the tests) -/

/-- Append each element in turn, keeping the state `append` returns
(appends from a well-formed state always succeed). -/
def appendAll (m : MMR) : List (List Nat) → MMR
  | [] => m
  | e :: es => appendAll (m.append e).1 es

/-- The crate tests' `make_mmr(n)`: append leaves `vec![0, 10]`,
`vec![1, 10]`, ... onto an empty MMR. -/
def makeMmr (n : Nat) : MMR :=
  appendAll (MMR.new 0 VecStore.new) ((List.range n).map (fun i => [i, 10]))

/-! ## Helper definitions and lemmas for the claims -/

/-- The spec's description of `root()`'s peak bagging, written from the
spec's words: "fold the peak list right-to-left: `acc = last_peak`; for
each earlier peak `p`: `acc = hash_with_index(size, H(p, acc))`"; compared
against the loop inside `MMR.root`. -/
def rootFoldSpec (size : Nat) : List Hash → Hash
  | [] => ZERO_HASH
  | [h] => h
  | h :: hs => hash_with_index size (hashPair h (rootFoldSpec size hs))

/-- The accumulator loop inside `MMR.root` computes exactly the spec's
right-to-left fold on a non-empty peak-hash list. -/
theorem rootFold_some (size : Nat) :
    ∀ (ps : List Hash), ps ≠ [] →
      ps.reverse.foldl
        (fun acc p =>
          match acc with
          | none => some p
          | some h => some (hash_with_index size (hashPair p h)))
        none = some (rootFoldSpec size ps)
  | [], h => absurd rfl h
  | [_], _ => rfl
  | x :: y :: t, _ => by
      have ih := rootFold_some size (y :: t) (by simp)
      rw [List.reverse_cons, List.foldl_append, ih]
      simp [rootFoldSpec]

/-- The merge loop of `bag_the_peaks` never decreases the new-node count. -/
theorem bagPeaksLoop_le (st : VecStore) (pm : Nat) :
    ∀ (fuel j idx new : Nat) (ph : Hash) (path : List Hash)
      (n : Nat) (p : List Hash),
      bagPeaksLoop st pm fuel j idx new ph path = .ok (n, p) → new ≤ n := by
  intro fuel
  induction fuel with
  | zero =>
      intro j idx new ph path n p h
      simp only [bagPeaksLoop, Except.ok.injEq, Prod.mk.injEq] at h
      omega
  | succ fuel ih =>
      intro j idx new ph path n p h
      simp only [bagPeaksLoop] at h
      split at h
      · split at h
        · exact absurd h (by simp)
        · have := ih _ _ _ _ _ _ _ h
          omega
      · simp only [Except.ok.injEq, Prod.mk.injEq] at h
        omega

/-! ## The claims -/

/-- C1: the claim states that for every leaf position `p` of an MMR built
by appends, `proof(p)` returns `Ok` (and the proof then verifies).  The
code violates this already at the `proof` guard: on the 8-leaf MMR
(size 15), position 8 is a leaf (`is_leaf 8`), yet `proof(8)` fails with
`ExpectingLeafNode(8)` because `mmr.rs` checks
`is_leaf(pos.saturating_sub(1))` -- contradicting the crate's own
`proof_works` test, which demands `proof(4)` to succeed on the 4-leaf MMR. -/
theorem proof_pipeline_guard_eval :
    (makeMmr 8).size = 15 ∧ is_leaf 8 = true ∧
      (makeMmr 8).proof 8 = .error (.ExpectingLeafNode 8) := by
  refine ⟨by decide, by decide, by decide⟩

/-- C5: the claim states that `proof(pos)` fails with
`ExpectingLeafNode(pos)` exactly for non-leaf positions.  In the code the
guard is `is_leaf(pos - 1)`: position 4 is a leaf yet `proof(4)` fails,
and position 3 is an inner node yet `proof(3)` passes the guard and
returns `Ok` -- contradicting the crate's own `proof_works` and
`proof_fails` tests. -/
theorem proof_leaf_guard_eval :
    is_leaf 4 = true ∧ (makeMmr 4).proof 4 = .error (.ExpectingLeafNode 4) ∧
      is_leaf 3 = false ∧ (makeMmr 2).proof 3 = .ok ⟨3, []⟩ := by
  refine ⟨by decide, by decide, by decide, by decide⟩

/-- C3: the claim states that `validate()` rechecks exactly the positions
`p` of height `> 0` (0-based height convention) and accepts every MMR
built by appends.  The code takes the height at `pos - 1`
(`node_height(pos.saturating_sub(1))`), so on the 3-leaf MMR (size 4) it
treats the leaf at store index 3 (position 4, `node_height 4 = 0`) as an
inner node and reports `InvalidNodeHash(3, ..)` -- contradicting the
crate's own `validate_works` test, which demands `Ok(true)` there. -/
theorem validate_eval :
    node_height 4 = 0 ∧
      ∃ stored expected,
        (makeMmr 3).validate = .error (.InvalidNodeHash 3 stored expected) :=
  ⟨by decide, _, _, rfl⟩

/-- C2: the claim states that `partial_proof(p, s)` equals,
element for element, the proof generated when the MMR really had `s`
nodes.  With 11 leaves appended (size 19), snapshot `s = 4` (the state
after 3 appends) and leaf `p = 1`, the two proofs differ: `partial_proof`
bags the *current* peaks (those of size 19, tagged with
`hash_with_index(19, ..)`) into the peak path, while the historical proof
contains the snapshot's own second peak hash. -/
theorem partial_proof_snapshot_eval :
    (makeMmr 3).size = 4 ∧ peaks 4 = [3, 4] ∧ is_leaf 1 = true ∧
      (∃ pr, (makeMmr 11).partial_proof 1 4 = .ok pr) ∧
      (∃ pr, (makeMmr 3).proof 1 = .ok pr) ∧
      (makeMmr 11).partial_proof 1 4 ≠ (makeMmr 3).proof 1 := by
  refine ⟨by decide, by decide, by decide, ⟨_, rfl⟩, ⟨_, rfl⟩, by decide⟩

/-- C6 counterexample: the claim states `family_path(pos, end_pos)` is
empty whenever `pos = 0`; but `family_path(0, 2)` is `[(2, 1)]`. -/
theorem family_path_zero_counterexample :
    family_path 0 2 = [(2, 1)] ∧ family_path 0 2 ≠ [] := by
  refine ⟨by decide, by decide⟩

/-- C6 (amended): `family_path(pos, end_pos)` returns an empty path
whenever `pos ≥ end_pos`; for `pos = 0` it is empty only when
`end_pos ≤ 1`. -/
theorem family_path_empty (pos end_pos : Nat) :
    (end_pos ≤ pos → family_path pos end_pos = []) ∧
      (end_pos ≤ 1 → family_path 0 end_pos = []) := by
  constructor
  · intro h
    match end_pos, h with
    | 0, _ => rfl
    | k + 1, h =>
        simp only [family_path, familyPathAux]
        rw [if_neg (by omega)]
  · intro h
    match end_pos, h with
    | 0, _ => decide
    | 1, _ => decide

/-- C6 witness for `family_path_empty`. -/
theorem family_path_empty_witness :
    (3 ≤ 5 ∧ family_path 5 3 = []) ∧ (1 ≤ 1 ∧ family_path 0 1 = []) :=
  ⟨⟨by decide, (family_path_empty 5 3).1 (by decide)⟩,
   ⟨by decide, (family_path_empty 0 1).2 (by decide)⟩⟩

/-- C10: `Mmr::hash(pos)` reads the store at index
`pos.saturating_sub(1)`; on a store with at least one hash, `hash(0)`
does not fail and returns the node at store index 0, the same value as
`hash(1)`. -/
theorem hash_reads_pred_index (m : MMR) (pos : Nat) :
    m.hash pos = m.store.hash_at (pos - 1) ∧
      (m.store.hashes ≠ [] →
        m.hash 0 = .ok (m.store.hashes.headD ZERO_HASH) ∧
          m.hash 1 = m.hash 0) := by
  refine ⟨rfl, ?_⟩
  intro hne
  match hx : m.store.hashes, hne with
  | a :: t, _ =>
      refine ⟨?_, rfl⟩
      simp [MMR.hash, VecStore.hash_at, hx]

/-- C10 witness for `hash_reads_pred_index`. -/
theorem hash_reads_pred_index_witness :
    (makeMmr 1).store.hashes ≠ [] ∧
      (makeMmr 1).hash 0 = .ok ((makeMmr 1).store.hashes.headD ZERO_HASH) ∧
      (makeMmr 1).hash 1 = (makeMmr 1).hash 0 :=
  ⟨by decide, (hash_reads_pred_index (makeMmr 1) 0).2 (by decide)⟩

/-- C7: `append` is atomic -- on any error the returned state is the input
state (size and store untouched) -- and on `Ok(n)` the value `n` is the
updated size, strictly greater than the previous size; successive appends
from an empty MMR return 1, 3, 4. -/
theorem append_atomic (m : MMR) (elem : List Nat) :
    (∀ e, (m.append elem).2 = .error e → (m.append elem).1 = m) ∧
      (∀ n, (m.append elem).2 = .ok n →
        n = (m.append elem).1.size ∧ m.size < n) ∧
      (((MMR.new 0 VecStore.new).append [0, 10]).2 = .ok 1 ∧
        (((MMR.new 0 VecStore.new).append [0, 10]).1.append [1, 10]).2 = .ok 3 ∧
        ((((MMR.new 0 VecStore.new).append [0, 10]).1.append [1, 10]).1.append
          [2, 10]).2 = .ok 4) := by
  refine ⟨?_, ?_, by decide, by decide, by decide⟩
  · intro e
    unfold MMR.append
    dsimp only
    split
    · intro _; rfl
    · split
      · intro _; rfl
      · split
        · intro _; rfl
        · intro h; exact absurd h (by simp)
  · intro n
    unfold MMR.append
    dsimp only
    split
    · intro h; exact absurd h (by simp)
    · split
      · intro h; exact absurd h (by simp)
      · rename_i new peak_hashes hbag
        split
        · rename_i e hst
          exact absurd hst (by simp [VecStore.append])
        · intro h
          simp only [Except.ok.injEq] at h
          subst h
          refine ⟨rfl, ?_⟩
          have h1 : 1 ≤ new := bagPeaksLoop_le _ _ _ _ _ _ _ _ _ _ hbag
          show m.size < m.size + new
          omega

/-- C7 witness for `append_atomic`. -/
theorem append_atomic_witness :
    (((MMR.new 2 VecStore.new).append [0]).2 = .error (.InvalidNodeHeight 1) ∧
      ((MMR.new 2 VecStore.new).append [0]).1 = MMR.new 2 VecStore.new) ∧
      (((MMR.new 0 VecStore.new).append [0, 10]).2 = .ok 1 ∧
        1 = ((MMR.new 0 VecStore.new).append [0, 10]).1.size ∧
        (MMR.new 0 VecStore.new).size < 1) :=
  ⟨⟨by decide,
    (append_atomic (MMR.new 2 VecStore.new) [0]).1 (.InvalidNodeHeight 1) (by decide)⟩,
   ⟨by decide,
    (append_atomic (MMR.new 0 VecStore.new) [0, 10]).2.1 1 (by decide)⟩⟩

/-- C4: `root()` returns `ZERO_HASH` on the empty MMR; fails with
`MissingRootNode` when `size > 0` but `peaks(size)` is empty (as at the
unstable sizes 2, 5, 6, 9); returns the single peak hash unchanged when
there is exactly one peak; and on several peaks returns the right-to-left
fold `acc = hash_with_index(size, H(p, acc))` over the peak hashes,
starting from the rightmost peak. -/
theorem root_spec (m : MMR) :
    (m.size = 0 → m.root = .ok ZERO_HASH) ∧
      (0 < m.size → peaks m.size = [] → m.root = .error .MissingRootNode) ∧
      (∀ p h, peaks m.size = [p] → m.store.hash_at (p - 1) = .ok h →
        m.root = .ok h) ∧
      (∀ hs, hs ≠ [] → m.peaks = .ok hs →
        m.root = .ok (rootFoldSpec m.size hs)) ∧
      (peaks 2 = [] ∧ peaks 5 = [] ∧ peaks 6 = [] ∧ peaks 9 = []) := by
  refine ⟨?_, ?_, ?_, ?_, by decide⟩
  · intro h; simp [MMR.root, h]
  · intro hpos hpeaks
    have hps : m.peaks = .ok [] := by
      simp [MMR.peaks, hpeaks, MMR.peaks.go]
    simp [MMR.root, Nat.pos_iff_ne_zero.mp hpos, hps]
  · intro p h hp hh
    have hne : ¬ m.size = 0 := by
      intro h0; rw [h0] at hp; simp [peaks] at hp
    have hps : m.peaks = .ok [h] := by
      simp only [MMR.peaks, hp, MMR.peaks.go, hh]
      rfl
    simp [MMR.root, hne, hps]
  · intro hs hsne hpk
    have hne : ¬ m.size = 0 := by
      intro h0
      have hps : m.peaks = .ok [] := by
        simp [MMR.peaks, h0, peaks, MMR.peaks.go]
      rw [hps] at hpk
      simp only [Except.ok.injEq] at hpk
      exact hsne hpk.symm
    simp only [MMR.root, if_neg hne, hpk]
    rw [rootFold_some m.size hs hsne]

/-- C4 witness for `root_spec`. -/
theorem root_spec_witness :
    (MMR.new 0 VecStore.new).root = .ok ZERO_HASH ∧
      (0 < (MMR.new 2 (makeMmr 2).store).size ∧
        peaks (MMR.new 2 (makeMmr 2).store).size = [] ∧
        (MMR.new 2 (makeMmr 2).store).root = .error .MissingRootNode) ∧
      (makeMmr 2).root = .ok ((makeMmr 2).store.hashes.getD 2 ZERO_HASH) ∧
      (makeMmr 3).root =
        .ok (rootFoldSpec (makeMmr 3).size ((makeMmr 3).peaks.toOption.getD [])) :=
  ⟨(root_spec _).1 rfl,
   ⟨by decide, by decide, (root_spec _).2.1 (by decide) (by decide)⟩,
   (root_spec _).2.2.1 3 _ (by decide) (by decide),
   (root_spec _).2.2.2.1 _ (by decide) (by decide)⟩

/-- A recognized hex digit has value at most 15. -/
theorem toDigit16_le (c : Char) (d : Nat) (h : toDigit16 c = some d) : d ≤ 15 := by
  simp only [toDigit16] at h
  split_ifs at h <;> simp only [Option.some.injEq] at h <;> omega

/-- On even-length all-hex-digit input, the `from_str_radix`-based pair
loop of `parse_hex` computes plain hex decoding. -/
theorem parsePairs_hexDecode :
    ∀ (l : List Char), l.length % 2 = 0 →
      (∀ c ∈ l, (toDigit16 c).isSome) →
      parsePairs l = some (hexDecodeSpec l)
  | [], _, _ => rfl
  | [_], h, _ => by simp at h
  | c1 :: c2 :: rest, h, hall => by
      obtain ⟨d1, hd1⟩ := Option.isSome_iff_exists.mp (hall c1 (by simp))
      obtain ⟨d2, hd2⟩ := Option.isSome_iff_exists.mp (hall c2 (by simp))
      have hb1 := toDigit16_le c1 d1 hd1
      have hb2 := toDigit16_le c2 d2 hd2
      have hplus : toDigit16 '+' = none := by decide
      have hminus : toDigit16 '-' = none := by decide
      have hne1 : ¬ c1 = '+' := by
        intro he; rw [he, hplus] at hd1; exact Option.noConfusion hd1
      have hne2 : ¬ c1 = '-' := by
        intro he; rw [he, hminus] at hd1; exact Option.noConfusion hd1
      have hfs : fromStrRadix16U8 [c1, c2] = some (d1 * 16 + d2) := by
        simp only [fromStrRadix16U8]
        rw [if_neg hne1, if_neg hne2]
        simp only [radixPosLoop, hd1, hd2]
        rw [if_pos (by omega), if_pos (by omega)]
        simp only [Option.some.injEq]
        omega
      have ih := parsePairs_hexDecode rest
        (by simp only [List.length_cons] at h; omega)
        (fun c hc => hall c (by simp [hc]))
      simp [parsePairs, hexDecodeSpec, hfs, ih, hd1, hd2]

/-- C8 counterexample: the claim states `from_hex` strips one optional
`0x` prefix and fails on any non-hex byte; but `trim_start_matches("0x")`
strips every leading repetition (so `"0x0x"` parses as the empty string
and yields the zero hash), and `u8::from_str_radix` accepts a leading
`'+'` in a two-character group (so `"+100"` parses as the bytes
`[0x01, 0x00]`). -/
theorem from_hex_counterexample :
    from_hex "0x0x".toList = .ok ZERO_HASH ∧
      from_hex "+100".toList = .ok (Hash.from_vec [1, 0]) := by
  refine ⟨by decide, by decide⟩

/-- C8 (amended): `from_hex` trims whitespace and strips every leading
repetition of `0x`; if the remainder has odd length it fails with the
hex-parse error carrying that remainder; if the remainder is an
even-length string of hex digits it returns `Hash::from_vec` of the
decoded bytes; in particular `from_hex("0x")` yields the all-zero hash
and `from_hex("0x0")` fails carrying `"0"`. -/
theorem from_hex_spec (s : List Char) :
    (¬ (strip0x (rustTrim s)).length % 2 = 0 →
      from_hex s = .error (.InvalidHexString (strip0x (rustTrim s)))) ∧
      ((strip0x (rustTrim s)).length % 2 = 0 →
        (∀ c ∈ strip0x (rustTrim s), (toDigit16 c).isSome) →
        from_hex s = .ok (Hash.from_vec (hexDecodeSpec (strip0x (rustTrim s))))) ∧
      from_hex "0x".toList = .ok ZERO_HASH ∧
      from_hex "0x0".toList = .error (.InvalidHexString "0".toList) := by
  refine ⟨?_, ?_, by decide, by decide⟩
  · intro hodd
    simp [from_hex, parse_hex, hodd]
  · intro heven hall
    have hp := parsePairs_hexDecode (strip0x (rustTrim s)) heven hall
    simp [from_hex, parse_hex, heven, hp]

/-- C8 witness for `from_hex_spec`. -/
theorem from_hex_spec_witness :
    (¬ (strip0x (rustTrim "0x123".toList)).length % 2 = 0 ∧
      from_hex "0x123".toList =
        .error (.InvalidHexString (strip0x (rustTrim "0x123".toList)))) ∧
      ((strip0x (rustTrim " 0xAb".toList)).length % 2 = 0 ∧
        from_hex " 0xAb".toList =
          .ok (Hash.from_vec (hexDecodeSpec (strip0x (rustTrim " 0xAb".toList))))) :=
  ⟨⟨by decide, (from_hex_spec "0x123".toList).1 (by decide)⟩,
   ⟨by decide, (from_hex_spec " 0xAb".toList).2.1 (by decide) (by decide)⟩⟩

/-- Little-endian `u64` decoding inverts encoding for any `n < 2 ^ 64`. -/
theorem decodeU64le_encode (n : Nat) (rest : List Nat) (h : n < 2 ^ 64) :
    decodeU64le (encodeU64le n ++ rest) = some (n, rest) := by
  simp only [encodeU64le, List.cons_append, List.nil_append, decodeU64le,
    Option.some.injEq, Prod.mk.injEq]
  exact ⟨by omega, trivial⟩

/-- Compact-length decoding inverts encoding for any `n < 2 ^ 32`. -/
theorem decodeCompact_encode (n : Nat) (rest : List Nat) (h : n < 2 ^ 32) :
    decodeCompact (compactEncode n ++ rest) = some (n, rest) := by
  by_cases h1 : n < 64
  · simp only [compactEncode, if_pos h1, List.cons_append, List.nil_append,
      decodeCompact]
    rw [if_pos (by omega : 4 * n % 4 = 0)]
    simp only [Option.some.injEq, Prod.mk.injEq]
    exact ⟨by omega, trivial⟩
  · by_cases h2 : n < 16384
    · simp only [compactEncode, if_neg h1, if_pos h2, List.cons_append,
        List.nil_append, decodeCompact]
      rw [if_neg (by omega), if_pos (by omega)]
      simp only [Option.some.injEq, Prod.mk.injEq]
      exact ⟨by omega, trivial⟩
    · by_cases h3 : n < 1073741824
      · simp only [compactEncode, if_neg h1, if_neg h2, if_pos h3,
          List.cons_append, List.nil_append, decodeCompact]
        rw [if_neg (by omega), if_neg (by omega), if_pos (by omega)]
        simp only [Option.some.injEq, Prod.mk.injEq]
        exact ⟨by omega, trivial⟩
      · simp only [compactEncode, if_neg h1, if_neg h2, if_neg h3,
          List.cons_append, List.nil_append, decodeCompact]
        norm_num
        omega

/-- Reading back `count` 32-byte hashes inverts flattening. -/
theorem decodeHashes_flatten :
    ∀ (path : List (List Nat)) (rest : List Nat),
      (∀ h ∈ path, h.length = 32) →
      decodeHashes path.length (path.flatten ++ rest) = some (path, rest)
  | [], _, _ => rfl
  | h :: t, rest, hall => by
      have hh : h.length = 32 := hall h (by simp)
      have ih := decodeHashes_flatten t rest (fun x hx => hall x (by simp [hx]))
      simp only [List.flatten_cons, List.length_cons, List.append_assoc]
      simp only [decodeHashes]
      rw [if_neg (by simp only [List.length_append, hh]; omega)]
      rw [← hh, List.drop_left, List.take_left, ih]

/-- C9: decoding the canonical wire encoding of a `MerkleProof` (any
`mmr_size < 2^64` and any path of 32-byte hashes) returns the proof, with
no bytes left over; the default-constructed proof is `{mmr_size: 0, path: []}`. -/
theorem proof_codec_roundtrip (mmr_size : Nat) (path : List (List Nat))
    (hsz : mmr_size < 2 ^ 64) (hlen : path.length < 2 ^ 32)
    (hpath : ∀ h ∈ path, h.length = 32) :
    decodeProofBytes (encodeProofBytes mmr_size path) =
      some ((mmr_size, path), []) ∧ MerkleProof.new = ⟨0, []⟩ := by
  refine ⟨?_, rfl⟩
  unfold encodeProofBytes decodeProofBytes
  rw [List.append_assoc, decodeU64le_encode _ _ hsz]
  dsimp only
  rw [decodeCompact_encode _ _ hlen]
  dsimp only
  have hd := decodeHashes_flatten path [] hpath
  rw [List.append_nil] at hd
  rw [hd]

/-- C9 witness for `proof_codec_roundtrip`. -/
theorem proof_codec_roundtrip_witness :
    (19 : Nat) < 2 ^ 64 ∧
      ([List.replicate 32 7] : List (List Nat)).length < 2 ^ 32 ∧
      decodeProofBytes (encodeProofBytes 19 [List.replicate 32 7]) =
        some ((19, [List.replicate 32 7]), []) ∧
      MerkleProof.new = ⟨0, []⟩ := by
  have h := proof_codec_roundtrip 19 [List.replicate 32 7] (by norm_num)
    (by norm_num) (by simp)
  exact ⟨by norm_num, by norm_num, h.1, h.2⟩

end Arber
